import Mathlib

/-!
Shallow embedding of `imgstack` (`src/main.rs`), a tool that merges a batch
of images into one output image under a selectable per-channel accumulation
mode.  The codec (decode/encode), CLI parsing and the filesystem are external
collaborators; they are modelled by an abstract environment `Env`.  Decoded
pixel data are flat lists of 8-bit channel samples (row-major RGB, as produced
by `to_rgb`), modelled as `Nat` with explicit `% 256` / clamping where the
u8 arithmetic requires it.  The `f32` accumulator of Average mode is modelled
by exact rationals; the spec's Average contract allows one unit of rounding
slack, which covers this idealisation.
-/

namespace ImgStack

/-- Input/output paths; the concrete representation is irrelevant. -/
abbrev Path := Nat

/-- `enum Mode` from `main.rs` (lines 34-51): the five processing modes. -/
inductive Mode
  | sum
  | sumOverflow
  | min
  | max
  | average
deriving DecidableEq

/-- The pixel formats `main.rs` distinguishes at lines 105-111:
`ImageRgb8`, `ImageRgba8`, and everything else (rejected). -/
inductive PixFormat
  | rgb8
  | rgba8
  | other
deriving DecidableEq

/-- A decoded input image as the fold loop sees it: its dynamic pixel format,
and its channel samples after the per-pixel `to_rgb` projection (so the alpha
channel of an rgba8 image is already dropped; three samples per pixel). -/
structure DecodedImage where
  format : PixFormat
  data : List Nat
deriving DecidableEq

/-- The output buffer (`RgbImage`): width, height, and flat channel data. -/
structure Image where
  width : Nat
  height : Nat
  data : List Nat
deriving DecidableEq

/-- `struct Args` from `main.rs` (lines 15-32). -/
structure Args where
  output : Path
  inputs : List Path
  mode : Mode
  overwrite : Bool

/-- The external world: the output-path checks, per-path metadata queries
(`exists`, `is_file`, `image_dimensions`) and the codec's `decode`.
`dims p = none` models `image_dimensions` returning an error for `p`;
`decode p = none` models the open/guess-format/decode pipeline failing. -/
structure Env where
  outIsDir : Bool
  outExists : Bool
  fileExists : Path → Bool
  isFile : Path → Bool
  dims : Path → Option (Nat × Nat)
  decode : Path → Option DecodedImage

/-- The ways a run can abort (each `return Err(...)`/`?` site of `main`),
plus `panicEmptyInputs` modelling the `inputs.first().unwrap()` panic. -/
inductive RunErr
  | outputIsDirectory
  | outputExistsNoOverwrite
  | panicEmptyInputs
  | dimQueryFailed (p : Path)
  | inputMissing (p : Path)
  | dimensionMismatch (p : Path)
  | decodeFailed (p : Path)
  | unsupportedFormat (p : Path)
deriving DecidableEq

/-- `u8::saturating_add` on sample values (< 256): clamps at 255. -/
def satAdd (a s : Nat) : Nat := Nat.min (a + s) 255

/-- `u8::overflowing_add(..).0` on sample values: wraps modulo 256. -/
def wrapAdd (a s : Nat) : Nat := (a + s) % 256

/-- The per-channel combine closure selected at `main.rs` lines 118-124.
The `average` arm is `unreachable!()` in the source (the outer match routes
Average elsewhere); it is given an arbitrary value here and never used. -/
def u8op : Mode → Nat → Nat → Nat
  | .sum => satAdd
  | .sumOverflow => wrapAdd
  | .min => Nat.min
  | .max => Nat.max
  | .average => fun a _ => a

/-- One image's contribution folded into the accumulator:
`outImg.pixels_mut().zip(img.pixels())` with `acc.apply2(&sample, op)`
(lines 127-130).  The zip stops at the shorter sequence, so accumulator
entries beyond the image's length are left unchanged, and the result always
has the accumulator's length. -/
def applyCombine {α β : Type} (op : α → β → α) : List α → List β → List α
  | [], _ => []
  | a :: acc, [] => a :: acc
  | a :: acc, s :: smp => op a s :: applyCombine op acc smp

/-- The Average-mode per-channel combine (line 142): the new 8-bit sample is
normalised by 255 and added to the running `f32` sum (modelled in `ℚ`). -/
def qCombine (a : ℚ) (v : Nat) : ℚ := a + (v : ℚ) / 255

/-- The per-input check of the dimension-validation loop body
(`main.rs` lines 70-86) succeeding for one non-first input. -/
def restOk (env : Env) (w h : Nat) (p : Path) : Bool :=
  env.fileExists p && env.isFile p && env.dims p == some (w, h)

/-- The dimension-validation loop over `args.inputs.iter().skip(1)`
(`main.rs` lines 70-86): existence/regular-file check, then dimension
query, then comparison against the first input's dimensions; fail fast. -/
def validateRest (env : Env) (w h : Nat) : List Path → Except RunErr Unit
  | [] => .ok ()
  | p :: rest =>
    if !(env.fileExists p && env.isFile p) then .error (.inputMissing p)
    else
      match env.dims p with
      | none => .error (.dimQueryFailed p)
      | some (w', h') =>
        if w != w' || h != h' then .error (.dimensionMismatch p)
        else validateRest env w h rest

/-- The integer-mode accumulation loop (`main.rs` lines 125-131): each input
is decoded in order, its format checked (lines 105-111), and on success its
samples are folded into the accumulator; any failure aborts. -/
def foldInputs (env : Env) (op : Nat → Nat → Nat) (acc : List Nat) :
    List Path → Except RunErr (List Nat)
  | [] => .ok acc
  | p :: rest =>
    match env.decode p with
    | none => .error (.decodeFailed p)
    | some d =>
      if d.format = .other then .error (.unsupportedFormat p)
      else foldInputs env op (applyCombine op acc d.data) rest

/-- The Average-mode accumulation loop (`main.rs` lines 137-144): same
structure as `foldInputs`, folding normalised samples into a `ℚ` buffer. -/
def foldInputsQ (env : Env) (acc : List ℚ) :
    List Path → Except RunErr (List ℚ)
  | [] => .ok acc
  | p :: rest =>
    match env.decode p with
    | none => .error (.decodeFailed p)
    | some d =>
      if d.format = .other then .error (.unsupportedFormat p)
      else foldInputsQ env (applyCombine qCombine acc d.data) rest

/-- The `f32` → `u8` channel conversion performed by `outImg.convert()`
(line 146): clamp to `[0, 1]`, scale by 255, round to nearest. -/
def encQ (q : ℚ) : Nat := (round ((255 : ℚ) * (max 0 (min q 1)))).toNat

/-- The mode-dispatching accumulation of `main.rs` lines 115-148: the
integer modes fold into a zero-initialised `RgbImage` buffer with the
selected combine closure; Average folds normalised samples into a
zero-initialised `Rgb32FImage` buffer, divides every channel by the input
count fixed before the loop (`inputs.len()`), and converts back to 8 bits. -/
def runStack (env : Env) (inputs : List Path) (m : Mode) (w ht : Nat) :
    Except RunErr Image :=
  match m with
  | .average =>
    match foldInputsQ env (List.replicate (3 * w * ht) 0) inputs with
    | .error e => .error e
    | .ok acc =>
      .ok ⟨w, ht, (acc.map (fun q => q / (inputs.length : ℚ))).map encQ⟩
  | m =>
    match foldInputs env (u8op m) (List.replicate (3 * w * ht) 0) inputs with
    | .error e => .error e
    | .ok d => .ok ⟨w, ht, d⟩

/-- The whole of `main` after argument parsing (`main.rs` lines 58-149):
output-path checks, first-input dimension query (with no prior existence
check), dimension validation of the remaining inputs, then the mode-selected
accumulation, Average finalisation, and the final buffer that `save` writes. -/
def run (env : Env) (args : Args) : Except RunErr Image :=
  if env.outIsDir then .error .outputIsDirectory
  else if env.outExists && !args.overwrite then .error .outputExistsNoOverwrite
  else
    match args.inputs.head? with
    | none => .error .panicEmptyInputs
    | some p₀ =>
      match env.dims p₀ with
      | none => .error (.dimQueryFailed p₀)
      | some (w, h) =>
        match validateRest env w h args.inputs.tail with
        | .error e => .error e
        | .ok _ => runStack env args.inputs args.mode w h

/-- The output file's contents: written exactly when `run` reaches
`outImg.save` (line 149), i.e. when no earlier step failed. -/
def outputWritten (env : Env) (args : Args) : Option Image :=
  (run env args).toOption

/-- The 3-channel sample data of input `p` as the fold sees it
(empty if decode fails; only used under a decode-success hypothesis). -/
def decodeData (env : Env) (p : Path) : List Nat :=
  match env.decode p with
  | none => []
  | some d => d.data

/-- The sequence of values the inputs contribute at flat channel index `i`,
in input order. -/
def column (env : Env) (i : Nat) (inputs : List Path) : List Nat :=
  inputs.map (fun p => (decodeData env p).getD i 0)

/-- Facts about any real environment: decoded samples are u8 values
(≤ 255), and a decoded image has `3 * w * h` samples where `(w, h)` are the
dimensions `image_dimensions` reports for the same file. -/
structure EnvWF (env : Env) : Prop where
  decode_bound : ∀ p d, env.decode p = some d → ∀ v ∈ d.data, v ≤ 255
  decode_dims : ∀ p d w h, env.decode p = some d → env.dims p = some (w, h) →
    d.data.length = 3 * w * h

/-! ### Basic properties of the combine step -/

theorem applyCombine_nil {α β : Type} (op : α → β → α) (acc : List α) :
    applyCombine op acc ([] : List β) = acc := by
  cases acc <;> rfl

theorem applyCombine_length {α β : Type} (op : α → β → α) (acc : List α)
    (d : List β) : (applyCombine op acc d).length = acc.length := by
  induction acc generalizing d with
  | nil => simp [applyCombine]
  | cons a acc ih =>
    cases d with
    | nil => simp [applyCombine]
    | cons s d => simp [applyCombine, ih]

theorem applyCombine_getD {α β : Type} (op : α → β → α) (z : α) (b : β)
    (acc : List α) (d : List β) (i : Nat) (hi : i < acc.length)
    (hd : i < d.length) :
    (applyCombine op acc d).getD i z = op (acc.getD i z) (d.getD i b) := by
  induction acc generalizing d i with
  | nil => simp at hi
  | cons a acc ih =>
    cases d with
    | nil => simp at hd
    | cons s d =>
      cases i with
      | zero => simp [applyCombine]
      | succ i =>
        simp only [applyCombine, List.getD_cons_succ]
        exact ih d i (by simpa using hi) (by simpa using hd)

theorem applyCombine_mem {α β : Type} (op : α → β → α) (acc : List α)
    (d : List β) (v : α) (hv : v ∈ applyCombine op acc d) :
    v ∈ acc ∨ ∃ a ∈ acc, ∃ s ∈ d, v = op a s := by
  induction acc generalizing d with
  | nil => simp [applyCombine] at hv
  | cons a acc ih =>
    cases d with
    | nil => rw [applyCombine_nil] at hv; exact .inl hv
    | cons s d =>
      simp only [applyCombine, List.mem_cons] at hv
      rcases hv with rfl | hv
      · exact .inr ⟨a, by simp, s, by simp, rfl⟩
      · rcases ih d hv with h | ⟨a', ha, s', hs, rfl⟩
        · exact .inl (by simp [h])
        · exact .inr ⟨a', by simp [ha], s', by simp [hs], rfl⟩

theorem applyCombine_comm {α β : Type} (op : α → β → α)
    (hop : ∀ a x y, op (op a x) y = op (op a y) x) (acc : List α) :
    ∀ d₁ d₂ : List β,
      applyCombine op (applyCombine op acc d₁) d₂ =
        applyCombine op (applyCombine op acc d₂) d₁ := by
  induction acc with
  | nil => intro d₁ d₂; simp [applyCombine]
  | cons a acc ih =>
    intro d₁ d₂
    cases d₁ with
    | nil => rw [applyCombine_nil, applyCombine_nil]
    | cons x d₁ =>
      cases d₂ with
      | nil => rw [applyCombine_nil, applyCombine_nil]
      | cons y d₂ => simp only [applyCombine]; rw [ih, hop]

/-! ### Per-channel fold characterisations -/

theorem satAdd_le (a s : Nat) : satAdd a s ≤ 255 := by
  simp only [satAdd, Nat.min_def]
  split <;> omega

theorem foldl_satAdd (l : List Nat) : ∀ a, a ≤ 255 →
    l.foldl satAdd a = Nat.min (a + l.sum) 255 := by
  induction l with
  | nil =>
    intro a ha
    simp only [List.foldl_nil, List.sum_nil, Nat.min_def]
    split <;> omega
  | cons s l ih =>
    intro a ha
    simp only [List.foldl_cons, List.sum_cons]
    rw [ih (satAdd a s) (satAdd_le a s)]
    simp only [satAdd, Nat.min_def]
    repeat' split
    all_goals omega

theorem foldl_wrapAdd (l : List Nat) : ∀ a, a ≤ 255 →
    l.foldl wrapAdd a = (a + l.sum) % 256 := by
  induction l with
  | nil => intro a ha; simp only [List.foldl_nil, List.sum_nil]; omega
  | cons s l ih =>
    intro a ha
    simp only [List.foldl_cons, List.sum_cons]
    rw [ih (wrapAdd a s) (by simp only [wrapAdd]; omega)]
    simp only [wrapAdd]
    rw [Nat.mod_add_mod]
    ring_nf

theorem le_foldl_max (l : List Nat) : ∀ a, a ≤ l.foldl Nat.max a := by
  induction l with
  | nil => intro a; simp
  | cons s l ih =>
    intro a
    simp only [List.foldl_cons]
    exact le_trans (Nat.le_max_left a s) (ih _)

theorem foldl_max_le (l : List Nat) : ∀ a v, v ∈ l → v ≤ l.foldl Nat.max a := by
  induction l with
  | nil => intro a v hv; simp at hv
  | cons s l ih =>
    intro a v hv
    simp only [List.foldl_cons]
    rcases List.mem_cons.mp hv with rfl | hv
    · calc v ≤ Nat.max a v := Nat.le_max_right a v
        _ ≤ l.foldl Nat.max (Nat.max a v) := le_foldl_max l _
    · exact ih _ v hv

theorem foldl_max_mem (l : List Nat) :
    ∀ a, l.foldl Nat.max a = a ∨ l.foldl Nat.max a ∈ l := by
  induction l with
  | nil => intro a; exact .inl rfl
  | cons s l ih =>
    intro a
    simp only [List.foldl_cons]
    rcases ih (Nat.max a s) with h | h
    · rw [h]
      rcases Nat.le_total a s with hle | hle
      · have hm : Nat.max a s = s := by
          simp only [Nat.max_def]
          split <;> omega
        rw [hm]; exact .inr (by simp)
      · have hm : Nat.max a s = a := by
          simp only [Nat.max_def]
          split <;> omega
        rw [hm]; exact .inl rfl
    · exact .inr (by simp [h])

theorem foldl_qCombine (l : List Nat) : ∀ a : ℚ,
    l.foldl qCombine a = a + (l.map (fun v : Nat => (v : ℚ) / 255)).sum := by
  induction l with
  | nil => intro a; simp
  | cons s l ih =>
    intro a
    simp only [List.foldl_cons, List.map_cons, List.sum_cons]
    rw [ih]
    simp only [qCombine]
    ring

theorem foldl_comm_perm {α β : Type} (f : α → β → α)
    (hf : ∀ b x y, f (f b x) y = f (f b y) x) {l₁ l₂ : List β}
    (hp : l₁.Perm l₂) : ∀ b, l₁.foldl f b = l₂.foldl f b := by
  induction hp with
  | nil => intro b; rfl
  | cons x _ ih => intro b; simp only [List.foldl_cons]; exact ih _
  | swap x y l => intro b; simp only [List.foldl_cons]; rw [hf b y x]
  | trans _ _ ih₁ ih₂ => intro b; rw [ih₁, ih₂]

/-! ### The accumulator as a pointwise fold -/

theorem stack_length {α β : Type} (op : α → β → α) (datas : List (List β)) :
    ∀ acc : List α,
      (datas.foldl (fun a d => applyCombine op a d) acc).length = acc.length := by
  induction datas with
  | nil => intro acc; rfl
  | cons d datas ih =>
    intro acc
    simp only [List.foldl_cons]
    rw [ih, applyCombine_length]

theorem stack_getD {α β : Type} (op : α → β → α) (z : α) (b : β)
    (datas : List (List β)) : ∀ (acc : List α) (i : Nat), i < acc.length →
    (∀ d ∈ datas, acc.length ≤ d.length) →
    (datas.foldl (fun a d => applyCombine op a d) acc).getD i z =
      (datas.map (fun d => d.getD i b)).foldl op (acc.getD i z) := by
  induction datas with
  | nil => intro acc i _ _; rfl
  | cons d datas ih =>
    intro acc i hi hlen
    simp only [List.foldl_cons, List.map_cons]
    rw [ih (applyCombine op acc d) i
        (by rw [applyCombine_length]; exact hi)
        (by intro d' hd'; rw [applyCombine_length]; exact hlen d' (by simp [hd']))]
    rw [applyCombine_getD op z b acc d i hi
        (lt_of_lt_of_le hi (hlen d (by simp)))]

/-! ### Inversion of the run pipeline -/

theorem foldInputs_ok (env : Env) (op : Nat → Nat → Nat) :
    ∀ (l : List Path) (acc out : List Nat), foldInputs env op acc l = .ok out →
      out = (l.map (decodeData env)).foldl (fun a d => applyCombine op a d) acc ∧
      ∀ p ∈ l, ∃ d, env.decode p = some d ∧ d.format ≠ PixFormat.other := by
  intro l
  induction l with
  | nil =>
    intro acc out h
    simp only [foldInputs] at h
    cases h
    exact ⟨rfl, by simp⟩
  | cons p l ih =>
    intro acc out h
    simp only [foldInputs] at h
    split at h
    · cases h
    · rename_i d hd
      by_cases hfmt : d.format = PixFormat.other
      · rw [if_pos hfmt] at h; cases h
      · rw [if_neg hfmt] at h
        obtain ⟨h1, h2⟩ := ih _ _ h
        refine ⟨?_, ?_⟩
        · simpa [decodeData, hd] using h1
        · intro q hq
          rcases List.mem_cons.mp hq with rfl | hq
          · exact ⟨d, hd, hfmt⟩
          · exact h2 q hq

theorem foldInputsQ_ok (env : Env) :
    ∀ (l : List Path) (acc out : List ℚ), foldInputsQ env acc l = .ok out →
      out = (l.map (decodeData env)).foldl (fun a d => applyCombine qCombine a d) acc ∧
      ∀ p ∈ l, ∃ d, env.decode p = some d ∧ d.format ≠ PixFormat.other := by
  intro l
  induction l with
  | nil =>
    intro acc out h
    simp only [foldInputsQ] at h
    cases h
    exact ⟨rfl, by simp⟩
  | cons p l ih =>
    intro acc out h
    simp only [foldInputsQ] at h
    split at h
    · cases h
    · rename_i d hd
      by_cases hfmt : d.format = PixFormat.other
      · rw [if_pos hfmt] at h; cases h
      · rw [if_neg hfmt] at h
        obtain ⟨h1, h2⟩ := ih _ _ h
        refine ⟨?_, ?_⟩
        · simpa [decodeData, hd] using h1
        · intro q hq
          rcases List.mem_cons.mp hq with rfl | hq
          · exact ⟨d, hd, hfmt⟩
          · exact h2 q hq

theorem validateRest_ok (env : Env) (w ht : Nat) :
    ∀ l, validateRest env w ht l = .ok () →
      ∀ p ∈ l, env.fileExists p = true ∧ env.isFile p = true ∧
        env.dims p = some (w, ht) := by
  intro l
  induction l with
  | nil => intro _ p hp; simp at hp
  | cons p l ih =>
    intro hv q hq
    simp only [validateRest] at hv
    by_cases hex : (!(env.fileExists p && env.isFile p)) = true
    · rw [if_pos hex] at hv; cases hv
    · rw [if_neg hex] at hv
      split at hv
      · cases hv
      · rename_i w' h' hd
        by_cases hne : (w != w' || ht != h') = true
        · rw [if_pos hne] at hv; cases hv
        · rw [if_neg hne] at hv
          have hwh : w = w' ∧ ht = h' := by simpa using hne
          obtain ⟨rfl, rfl⟩ := hwh
          have hfi : env.fileExists p = true ∧ env.isFile p = true := by
            simpa using hex
          rcases List.mem_cons.mp hq with rfl | hq
          · exact ⟨hfi.1, hfi.2, hd⟩
          · exact ih hv q hq

theorem runStack_ok (env : Env) (inputs : List Path) (m : Mode) (w ht : Nat)
    (img : Image) (h : runStack env inputs m w ht = .ok img) :
    img.width = w ∧ img.height = ht ∧
      ((m ≠ Mode.average ∧
        foldInputs env (u8op m) (List.replicate (3 * w * ht) 0) inputs
          = .ok img.data) ∨
       (m = Mode.average ∧
        ∃ acc, foldInputsQ env (List.replicate (3 * w * ht) 0) inputs = .ok acc ∧
          img.data = (acc.map (fun q => q / (inputs.length : ℚ))).map encQ)) := by
  cases m <;> simp only [runStack] at h
  case average =>
    split at h
    · cases h
    · rename_i acc heq
      cases h
      exact ⟨rfl, rfl, .inr ⟨rfl, acc, heq, rfl⟩⟩
  all_goals
    split at h
    · cases h
    · rename_i d heq
      cases h
      exact ⟨rfl, rfl, .inl ⟨by decide, heq⟩⟩

theorem run_ok_parts (env : Env) (args : Args) (img : Image)
    (hrun : run env args = .ok img) :
    ∃ p₀ w ht, args.inputs.head? = some p₀ ∧ env.dims p₀ = some (w, ht) ∧
      validateRest env w ht args.inputs.tail = .ok () ∧
      runStack env args.inputs args.mode w ht = .ok img := by
  rw [run] at hrun
  split at hrun
  · cases hrun
  split at hrun
  · cases hrun
  split at hrun
  · cases hrun
  next p₀ hp₀ =>
    split at hrun
    · cases hrun
    next w ht hd =>
      split at hrun
      · cases hrun
      next u hv =>
        cases u
        exact ⟨p₀, w, ht, hp₀, hd, hv, hrun⟩

theorem run_ok_dims (env : Env) (args : Args) (img : Image)
    (hrun : run env args = .ok img) :
    ∃ w ht, (∀ p ∈ args.inputs, env.dims p = some (w, ht)) ∧
      runStack env args.inputs args.mode w ht = .ok img ∧
      img.width = w ∧ img.height = ht ∧ args.inputs ≠ [] := by
  obtain ⟨p₀, w, ht, hp₀, hd, hv, hs⟩ := run_ok_parts env args img hrun
  obtain ⟨hw, hh, _⟩ := runStack_ok env args.inputs args.mode w ht img hs
  refine ⟨w, ht, ?_, hs, hw, hh, ?_⟩
  · intro p hp
    cases hi : args.inputs with
    | nil => rw [hi] at hp; simp at hp
    | cons q t =>
      rw [hi] at hp₀ hv hp
      simp only [List.head?_cons, Option.some.injEq] at hp₀
      subst hp₀
      simp only [List.tail_cons] at hv
      rcases List.mem_cons.mp hp with rfl | hp
      · exact hd
      · exact (validateRest_ok env w ht t hv p hp).2.2
  · intro hnil
    rw [hnil] at hp₀
    cases hp₀

theorem run_ok_decode (env : Env) (args : Args) (img : Image) (hwf : EnvWF env)
    (hrun : run env args = .ok img) :
    ∀ p ∈ args.inputs, ∃ d, env.decode p = some d ∧ d.format ≠ PixFormat.other ∧
      d.data.length = 3 * img.width * img.height ∧ ∀ v ∈ d.data, v ≤ 255 := by
  obtain ⟨w, ht, hdims, hs, hw, hh, _⟩ := run_ok_dims env args img hrun
  obtain ⟨_, _, hcase⟩ := runStack_ok env args.inputs args.mode w ht img hs
  subst hw; subst hh
  have hdec : ∀ p ∈ args.inputs, ∃ d, env.decode p = some d ∧
      d.format ≠ PixFormat.other := by
    rcases hcase with ⟨_, hf⟩ | ⟨_, acc, hf, _⟩
    · exact (foldInputs_ok env (u8op args.mode) args.inputs _ _ hf).2
    · exact (foldInputsQ_ok env args.inputs _ _ hf).2
  intro p hp
  obtain ⟨d, hd, hfmt⟩ := hdec p hp
  exact ⟨d, hd, hfmt, hwf.decode_dims p d _ _ hd (hdims p hp),
    hwf.decode_bound p d hd⟩

/-! ### Channel-level characterisation of successful runs -/

theorem getD_replicate {α : Type} (z : α) (n i : Nat) :
    (List.replicate n z).getD i z = z := by
  induction n generalizing i with
  | zero => simp [List.getD]
  | succ n ih =>
    cases i with
    | zero => simp [List.replicate]
    | succ i => simp only [List.replicate, List.getD_cons_succ]; exact ih i

theorem getD_map_of_lt {α β : Type} (f : α → β) (l : List α) (i : Nat)
    (hi : i < l.length) (z : α) (z' : β) :
    (l.map f).getD i z' = f (l.getD i z) := by
  rw [List.getD_eq_getElem _ _ (by simpa using hi),
    List.getD_eq_getElem _ _ hi, List.getElem_map]

theorem decodeData_eq (env : Env) (p : Path) (d : DecodedImage)
    (hd : env.decode p = some d) : decodeData env p = d.data := by
  simp [decodeData, hd]

theorem run_data_len (env : Env) (args : Args) (img : Image) (hwf : EnvWF env)
    (hrun : run env args = .ok img) :
    ∀ p ∈ args.inputs,
      (decodeData env p).length = 3 * img.width * img.height ∧
      ∀ v ∈ decodeData env p, v ≤ 255 := by
  intro p hp
  obtain ⟨d, hd, _, hlen, hbound⟩ := run_ok_decode env args img hwf hrun p hp
  rw [decodeData_eq env p d hd]
  exact ⟨hlen, hbound⟩

theorem run_u8_channel (env : Env) (args : Args) (img : Image) (hwf : EnvWF env)
    (hrun : run env args = .ok img) (hm : args.mode ≠ Mode.average) (i : Nat)
    (hi : i < 3 * img.width * img.height) :
    img.data.getD i 0 = (column env i args.inputs).foldl (u8op args.mode) 0 := by
  obtain ⟨w, ht, hdims, hs, hw, hh, hne⟩ := run_ok_dims env args img hrun
  obtain ⟨_, _, hcase⟩ := runStack_ok env args.inputs args.mode w ht img hs
  rcases hcase with ⟨_, hf⟩ | ⟨havg, _⟩
  · obtain ⟨hdata, _⟩ := foldInputs_ok env (u8op args.mode) args.inputs _ _ hf
    subst hw; subst hh
    rw [hdata]
    rw [stack_getD (u8op args.mode) 0 0 _ _ i (by simpa using hi) ?_]
    · rw [getD_replicate, List.map_map]
      rfl
    · intro d hd
      obtain ⟨p, hp, rfl⟩ := List.mem_map.mp hd
      rw [(run_data_len env args img hwf hrun p hp).1]
      simp
  · exact absurd havg hm

theorem run_u8_data_len (env : Env) (args : Args) (img : Image)
    (hrun : run env args = .ok img) (hm : args.mode ≠ Mode.average) :
    img.data.length = 3 * img.width * img.height := by
  obtain ⟨w, ht, hdims, hs, hw, hh, hne⟩ := run_ok_dims env args img hrun
  obtain ⟨_, _, hcase⟩ := runStack_ok env args.inputs args.mode w ht img hs
  rcases hcase with ⟨_, hf⟩ | ⟨havg, _⟩
  · obtain ⟨hdata, _⟩ := foldInputs_ok env (u8op args.mode) args.inputs _ _ hf
    subst hw; subst hh
    rw [hdata, stack_length, List.length_replicate]
  · exact absurd havg hm

theorem run_avg_channel (env : Env) (args : Args) (img : Image)
    (hwf : EnvWF env) (hrun : run env args = .ok img)
    (hm : args.mode = Mode.average) (i : Nat)
    (hi : i < 3 * img.width * img.height) :
    img.data.getD i 0 =
      encQ ((column env i args.inputs).foldl qCombine 0 /
        (args.inputs.length : ℚ)) := by
  obtain ⟨w, ht, hdims, hs, hw, hh, hne⟩ := run_ok_dims env args img hrun
  obtain ⟨_, _, hcase⟩ := runStack_ok env args.inputs args.mode w ht img hs
  rcases hcase with ⟨hnavg, _⟩ | ⟨_, acc, hf, hdata⟩
  · exact absurd hm hnavg
  · obtain ⟨hacc, _⟩ := foldInputsQ_ok env args.inputs _ _ hf
    subst hw; subst hh
    have hlenacc : acc.length = 3 * img.width * img.height := by
      rw [hacc, stack_length, List.length_replicate]
    rw [hdata]
    rw [getD_map_of_lt encQ _ i (by simpa [hlenacc] using hi) 0 0]
    rw [getD_map_of_lt (fun q => q / (args.inputs.length : ℚ)) _ i
      (by simpa [hlenacc] using hi) 0 0]
    congr 1
    rw [hacc]
    rw [stack_getD qCombine 0 0 _ _ i (by simpa using hi) ?_]
    · rw [getD_replicate, List.map_map]
      rfl
    · intro d hd
      obtain ⟨p, hp, rfl⟩ := List.mem_map.mp hd
      rw [(run_data_len env args img hwf hrun p hp).1]
      simp

theorem column_bounds (env : Env) (args : Args) (img : Image) (hwf : EnvWF env)
    (hrun : run env args = .ok img) (i : Nat)
    (hi : i < 3 * img.width * img.height) :
    ∀ v ∈ column env i args.inputs, v ≤ 255 := by
  intro v hv
  obtain ⟨p, hp, rfl⟩ := List.mem_map.mp hv
  obtain ⟨hlen, hbound⟩ := run_data_len env args img hwf hrun p hp
  have hilen : i < (decodeData env p).length := by rw [hlen]; exact hi
  rw [List.getD_eq_getElem _ _ hilen]
  exact hbound _ (List.getElem_mem hilen)

/-! ### Shared helper: Min mode zeroes every channel -/

theorem stack_min_zero (datas : List (List Nat)) :
    ∀ acc : List Nat, (∀ v ∈ acc, v = 0) →
      ∀ v ∈ datas.foldl (fun a d => applyCombine Nat.min a d) acc, v = 0 := by
  induction datas with
  | nil => intro acc h v hv; exact h v hv
  | cons d datas ih =>
    intro acc h v hv
    simp only [List.foldl_cons] at hv
    refine ih _ ?_ v hv
    intro u hu
    rcases applyCombine_mem _ _ _ _ hu with h' | ⟨a, ha, s, _, rfl⟩
    · exact h u h'
    · rw [h a ha]
      simp [Nat.min_def]

theorem run_min_zero_helper (env : Env) (args : Args) (img : Image)
    (hm : args.mode = Mode.min) (hrun : run env args = .ok img) :
    ∀ v ∈ img.data, v = 0 := by
  obtain ⟨p₀, w, ht, hp₀, hd, hv, hs⟩ := run_ok_parts env args img hrun
  obtain ⟨_, _, hcase⟩ := runStack_ok env args.inputs args.mode w ht img hs
  rcases hcase with ⟨_, hf⟩ | ⟨havg, _⟩
  · obtain ⟨hdata, _⟩ := foldInputs_ok env (u8op args.mode) args.inputs _ _ hf
    simp only [hm, u8op] at hdata
    rw [hdata]
    exact stack_min_zero _ _ (fun v hv => List.eq_of_mem_replicate hv)
  · rw [hm] at havg; cases havg

/-! ### A concrete environment used to exercise the theorems -/

/-- A world with two 1x1 inputs (paths 0 and 1) whose channel samples are
`[10, 20, 30]` and `[5, 200, 255]`, a writable output path, and nothing else
in the way. -/
def envA : Env where
  outIsDir := false
  outExists := false
  fileExists := fun _ => true
  isFile := fun _ => true
  dims := fun _ => some (1, 1)
  decode := fun p =>
    some ⟨PixFormat.rgb8, if p = 0 then [10, 20, 30] else [5, 200, 255]⟩

theorem envA_wf : EnvWF envA := by
  constructor
  · intro p d h v hv
    simp only [envA] at h
    cases h
    by_cases hp : p = 0 <;> simp [hp] at hv <;>
      rcases hv with rfl | rfl | rfl <;> omega
  · intro p d w h hdec hdim
    simp only [envA] at hdec hdim
    cases hdec
    cases hdim
    by_cases hp : p = 0 <;> simp [hp]

def argsSum : Args := ⟨99, [0, 1], Mode.sum, false⟩

def argsOvf : Args := ⟨99, [0, 1], Mode.sumOverflow, false⟩

def argsMin : Args := ⟨99, [0, 1], Mode.min, false⟩

def argsMax : Args := ⟨99, [0, 1], Mode.max, false⟩

/-! ### The claims -/

/-- C1: In Min mode, for every input batch, the output value is 0 for every
pixel and channel: the accumulator is zero-initialized and folded with
per-channel min, and no corrected mode exists in the program (the `Mode`
enumeration has exactly the five listed variants). -/
theorem min_mode_all_zero (env : Env) (args : Args) (img : Image)
    (hm : args.mode = Mode.min) (hrun : run env args = .ok img) :
    (∀ v ∈ img.data, v = 0) ∧
    (∀ m : Mode, m = Mode.sum ∨ m = Mode.sumOverflow ∨ m = Mode.min ∨
      m = Mode.max ∨ m = Mode.average) := by
  refine ⟨run_min_zero_helper env args img hm hrun, ?_⟩
  intro m
  cases m <;> simp

/-- Witness for C1: the concrete two-input Min run produces the all-black
1x1 image even though neither input is black. -/
theorem min_mode_all_zero_witness :
    (∀ v ∈ (Image.mk 1 1 [0, 0, 0]).data, v = 0) ∧
    (∀ m : Mode, m = Mode.sum ∨ m = Mode.sumOverflow ∨ m = Mode.min ∨
      m = Mode.max ∨ m = Mode.average) :=
  min_mode_all_zero envA argsMin ⟨1, 1, [0, 0, 0]⟩ rfl rfl

/-- C3: In Sum mode, for every batch and every pixel/channel, the output
value equals min(255, sum of the inputs' values at that pixel/channel):
the fold of u8 saturating addition starting from 0 equals the clamped
exact sum. -/
theorem sum_mode_saturating (env : Env) (args : Args) (img : Image)
    (hwf : EnvWF env) (hm : args.mode = Mode.sum)
    (hrun : run env args = .ok img) (i : Nat)
    (hi : i < 3 * img.width * img.height) :
    img.data.getD i 0 = Nat.min ((column env i args.inputs).sum) 255 := by
  rw [run_u8_channel env args img hwf hrun (by simp [hm]) i hi]
  rw [hm]
  simp only [u8op]
  rw [foldl_satAdd _ 0 (by omega), Nat.zero_add]

/-- Witness for C3: channel 2 of the concrete Sum run saturates,
30 + 255 clamping to 255. -/
theorem sum_mode_saturating_witness :
    (Image.mk 1 1 [15, 220, 255]).data.getD 2 0 =
      Nat.min ((column envA 2 argsSum.inputs).sum) 255 :=
  sum_mode_saturating envA argsSum ⟨1, 1, [15, 220, 255]⟩ envA_wf rfl rfl 2
    (by decide)

/-- C4: In SumOverflow mode, for every batch and every pixel/channel, the
output value equals the sum of the inputs' values at that pixel/channel
modulo 256 (fold of u8 wrapping addition starting from 0). -/
theorem sum_overflow_mode_wrapping (env : Env) (args : Args) (img : Image)
    (hwf : EnvWF env) (hm : args.mode = Mode.sumOverflow)
    (hrun : run env args = .ok img) (i : Nat)
    (hi : i < 3 * img.width * img.height) :
    img.data.getD i 0 = (column env i args.inputs).sum % 256 := by
  rw [run_u8_channel env args img hwf hrun (by simp [hm]) i hi]
  rw [hm]
  simp only [u8op]
  rw [foldl_wrapAdd _ 0 (by omega), Nat.zero_add]

/-- Witness for C4: channel 2 of the concrete SumOverflow run wraps,
30 + 255 = 285 becoming 29 modulo 256. -/
theorem sum_overflow_mode_wrapping_witness :
    (Image.mk 1 1 [15, 220, 29]).data.getD 2 0 =
      (column envA 2 argsOvf.inputs).sum % 256 :=
  sum_overflow_mode_wrapping envA argsOvf ⟨1, 1, [15, 220, 29]⟩ envA_wf rfl rfl
    2 (by decide)

theorem natMax_right_comm (a x y : Nat) :
    Nat.max (Nat.max a x) y = Nat.max (Nat.max a y) x := by
  simp only [Nat.max_def]
  repeat' split
  all_goals omega

/-- C5: In Max mode, for every non-empty batch and every pixel/channel, the
output value equals the maximum over the inputs' values at that
pixel/channel (seeding the fold from 0 is harmless since all u8 values are
nonnegative), and the result is independent of the order of the inputs. -/
theorem max_mode_channel (env : Env) (args : Args) (img : Image)
    (hwf : EnvWF env) (hm : args.mode = Mode.max)
    (hrun : run env args = .ok img) :
    (∀ i, i < 3 * img.width * img.height →
      img.data.getD i 0 ∈ column env i args.inputs ∧
      ∀ v ∈ column env i args.inputs, v ≤ img.data.getD i 0) ∧
    (∀ (args' : Args) (img' : Image), args'.inputs.Perm args.inputs →
      args'.mode = Mode.max → run env args' = .ok img' →
      img'.data = img.data) := by
  constructor
  · intro i hi
    have hch := run_u8_channel env args img hwf hrun (by simp [hm]) i hi
    rw [hm] at hch
    simp only [u8op] at hch
    have hnonempty : column env i args.inputs ≠ [] := by
      obtain ⟨w, ht, _, _, _, _, hne⟩ := run_ok_dims env args img hrun
      simpa [column] using hne
    constructor
    · rw [hch]
      rcases foldl_max_mem (column env i args.inputs) 0 with h0 | hmem
      · rw [h0]
        cases hc : column env i args.inputs with
        | nil => exact absurd hc hnonempty
        | cons x t =>
          have hx : x ≤ 0 := by
            have hle := foldl_max_le (column env i args.inputs) 0 x
              (by rw [hc]; simp)
            rw [h0] at hle
            exact hle
          have hx0 : x = 0 := Nat.le_zero.mp hx
          rw [← hx0]
          simp
      · exact hmem
    · intro v hv
      rw [hch]
      exact foldl_max_le _ 0 v hv
  · intro args' img' hperm hm' hrun'
    obtain ⟨w, ht, hdims, hs, hw, hh, hne⟩ := run_ok_dims env args img hrun
    obtain ⟨w', ht', hdims', hs', hw', hh', hne'⟩ :=
      run_ok_dims env args' img' hrun'
    obtain ⟨q, hq⟩ := List.exists_mem_of_ne_nil args'.inputs hne'
    have hq2 : q ∈ args.inputs := hperm.mem_iff.mp hq
    have hwh : w' = w ∧ ht' = ht := by
      have h12 := (hdims' q hq).symm.trans (hdims q hq2)
      simpa using h12
    obtain ⟨hweq, hheq⟩ := hwh
    rw [hweq, hheq] at hs'
    obtain ⟨_, _, hcase⟩ := runStack_ok env args.inputs args.mode w ht img hs
    rcases hcase with ⟨_, hf⟩ | ⟨havg, _⟩
    swap
    · rw [hm] at havg; cases havg
    obtain ⟨hdata, _⟩ := foldInputs_ok env _ args.inputs _ _ hf
    obtain ⟨_, _, hcase'⟩ :=
      runStack_ok env args'.inputs args'.mode w ht img' hs'
    rcases hcase' with ⟨_, hf'⟩ | ⟨havg', _⟩
    swap
    · rw [hm'] at havg'; cases havg'
    obtain ⟨hdata', _⟩ := foldInputs_ok env _ args'.inputs _ _ hf'
    simp only [hm, u8op] at hdata
    simp only [hm', u8op] at hdata'
    rw [hdata, hdata']
    exact foldl_comm_perm _
      (fun b x y => applyCombine_comm Nat.max natMax_right_comm b x y)
      (hperm.map (decodeData env)) _

/-- Witness for C5: the concrete two-input Max run realises the per-channel
maxima `[10, 200, 255]`, and any success on a permutation of the same
inputs yields the same pixels. -/
theorem max_mode_channel_witness :
    (∀ i, i < 3 * (Image.mk 1 1 [10, 200, 255]).width *
        (Image.mk 1 1 [10, 200, 255]).height →
      (Image.mk 1 1 [10, 200, 255]).data.getD i 0 ∈
        column envA i argsMax.inputs ∧
      ∀ v ∈ column envA i argsMax.inputs,
        v ≤ (Image.mk 1 1 [10, 200, 255]).data.getD i 0) ∧
    (∀ (args' : Args) (img' : Image), args'.inputs.Perm argsMax.inputs →
      args'.mode = Mode.max → run envA args' = .ok img' →
      img'.data = (Image.mk 1 1 [10, 200, 255]).data) :=
  max_mode_channel envA argsMax ⟨1, 1, [10, 200, 255]⟩ envA_wf rfl rfl

def argsMin1 : Args := ⟨99, [1], Mode.min, false⟩

/-- Counterexample to C2: a single-input batch under Min mode does NOT
return that input's pixels: the decoded input is `[5, 200, 255]` but the
output is all-black, because the zero accumulator absorbs under min. -/
theorem single_input_min_counterexample :
    run envA argsMin1 = .ok ⟨1, 1, [0, 0, 0]⟩ ∧
    decodeData envA 1 = [5, 200, 255] ∧
    (Image.mk 1 1 [0, 0, 0]).data ≠ [5, 200, 255] :=
  ⟨rfl, rfl, by decide⟩

theorem run_avg_data_len (env : Env) (args : Args) (img : Image)
    (hrun : run env args = .ok img) (hm : args.mode = Mode.average) :
    img.data.length = 3 * img.width * img.height := by
  obtain ⟨w, ht, hdims, hs, hw, hh, hne⟩ := run_ok_dims env args img hrun
  obtain ⟨_, _, hcase⟩ := runStack_ok env args.inputs args.mode w ht img hs
  rcases hcase with ⟨hnavg, _⟩ | ⟨_, acc, hf, hdata⟩
  · exact absurd hm hnavg
  · obtain ⟨hacc, _⟩ := foldInputsQ_ok env args.inputs _ _ hf
    subst hw; subst hh
    rw [hdata]
    simp only [List.length_map]
    rw [hacc, stack_length, List.length_replicate]

/-- C2 amended: for every batch containing exactly one input image, the
output pixels equal that input's pixels (after format normalization) under
Sum, SumOverflow, Max and Average — but NOT under Min, where the zero seed
absorbs and the single-input output is all-black. -/
theorem single_input_identity (env : Env) (args : Args) (img : Image)
    (p : Path) (d : DecodedImage) (hwf : EnvWF env)
    (hin : args.inputs = [p]) (hrun : run env args = .ok img)
    (hd : env.decode p = some d) :
    ((args.mode = Mode.sum ∨ args.mode = Mode.sumOverflow ∨
      args.mode = Mode.max ∨ args.mode = Mode.average) → img.data = d.data) ∧
    (args.mode = Mode.min → ∀ v ∈ img.data, v = 0) := by
  refine ⟨?_, fun hm => run_min_zero_helper env args img hm hrun⟩
  intro hm
  have hp : p ∈ args.inputs := by rw [hin]; simp
  obtain ⟨hdlen0, hdbound0⟩ := run_data_len env args img hwf hrun p hp
  rw [decodeData_eq env p d hd] at hdlen0 hdbound0
  have hcol : ∀ i, column env i args.inputs = [d.data.getD i 0] := by
    intro i
    rw [hin]
    simp [column, decodeData_eq env p d hd]
  have hlen : img.data.length = 3 * img.width * img.height := by
    rcases hm with hm | hm | hm | hm
    · exact run_u8_data_len env args img hrun (by simp [hm])
    · exact run_u8_data_len env args img hrun (by simp [hm])
    · exact run_u8_data_len env args img hrun (by simp [hm])
    · exact run_avg_data_len env args img hrun hm
  apply List.ext_getElem (by rw [hlen, hdlen0])
  intro i h₁ h₂
  have hi : i < 3 * img.width * img.height := by rw [← hlen]; exact h₁
  have hvb : d.data.getD i 0 ≤ 255 := by
    rw [List.getD_eq_getElem _ _ h₂]
    exact hdbound0 _ (List.getElem_mem h₂)
  rw [← List.getD_eq_getElem img.data 0 h₁, ← List.getD_eq_getElem d.data 0 h₂]
  rcases hm with hm | hm | hm | hm
  · rw [run_u8_channel env args img hwf hrun (by simp [hm]) i hi, hm]
    simp only [u8op, hcol, List.foldl_cons, List.foldl_nil, List.sum_cons,
      List.sum_nil, satAdd, Nat.min_def]
    split <;> omega
  · rw [run_u8_channel env args img hwf hrun (by simp [hm]) i hi, hm]
    simp only [u8op, hcol, List.foldl_cons, List.foldl_nil, wrapAdd]
    omega
  · rw [run_u8_channel env args img hwf hrun (by simp [hm]) i hi, hm]
    simp only [u8op, hcol, List.foldl_cons, List.foldl_nil, Nat.max_def]
    split <;> omega
  · rw [run_avg_channel env args img hwf hrun hm i hi, hcol, hin]
    simp only [List.foldl_cons, List.foldl_nil, qCombine, List.length_cons,
      List.length_nil, Nat.cast_one, zero_add, div_one, Nat.zero_add]
    rw [encQ]
    have hle : (d.data.getD i 0 : ℚ) / 255 ≤ 1 := by
      rw [div_le_one (by norm_num)]
      exact_mod_cast hvb
    have hge : (0 : ℚ) ≤ (d.data.getD i 0 : ℚ) / 255 := by positivity
    rw [min_eq_left hle, max_eq_right hge]
    have h255 : (255 : ℚ) * ((d.data.getD i 0 : ℚ) / 255) =
        ((d.data.getD i 0 : Nat) : ℚ) := by
      field_simp
    rw [h255, round_natCast, Int.toNat_natCast]

def argsSum1 : Args := ⟨99, [0], Mode.sum, false⟩

/-- Witness for C2 (amended): the concrete single-input Sum run reproduces
the input's pixels `[10, 20, 30]` unchanged. -/
theorem single_input_identity_witness :
    ((argsSum1.mode = Mode.sum ∨ argsSum1.mode = Mode.sumOverflow ∨
      argsSum1.mode = Mode.max ∨ argsSum1.mode = Mode.average) →
      (Image.mk 1 1 [10, 20, 30]).data = [10, 20, 30]) ∧
    (argsSum1.mode = Mode.min →
      ∀ v ∈ (Image.mk 1 1 [10, 20, 30]).data, v = 0) :=
  single_input_identity envA argsSum1 ⟨1, 1, [10, 20, 30]⟩ 0
    ⟨PixFormat.rgb8, [10, 20, 30]⟩ envA_wf rfl rfl rfl

theorem encQ_eq_round (q : ℚ) (h0 : 0 ≤ q) (h1 : q ≤ 1) :
    encQ q = (round ((255 : ℚ) * q)).toNat := by
  rw [encQ, min_eq_left h1, max_eq_right h0]

theorem sum_le_length_of_le_one (l : List ℚ) (h : ∀ v ∈ l, v ≤ 1) :
    l.sum ≤ (l.length : ℚ) := by
  induction l with
  | nil => simp
  | cons x l ih =>
    simp only [List.sum_cons, List.length_cons]
    push_cast
    have hx := h x (by simp)
    have hl := ih (fun v hv => h v (by simp [hv]))
    linarith

/-- C6: In Average mode, for every non-empty batch and every pixel/channel,
the output value equals round(255 * mean of the inputs' values normalized
by 255) at that pixel/channel — here proved exactly in the rational model,
hence within one unit of rounding error of the f32 computation; the divisor
is the count of validated inputs fixed before accumulation starts
(`args.inputs.length`). -/
theorem average_mode_channel (env : Env) (args : Args) (img : Image)
    (hwf : EnvWF env) (hm : args.mode = Mode.average)
    (hrun : run env args = .ok img) (i : Nat)
    (hi : i < 3 * img.width * img.height) :
    img.data.getD i 0 =
      (round ((255 : ℚ) *
        (((column env i args.inputs).map (fun v : Nat => (v : ℚ) / 255)).sum /
          (args.inputs.length : ℚ)))).toNat := by
  rw [run_avg_channel env args img hwf hrun hm i hi]
  rw [foldl_qCombine, zero_add]
  have hlencol : (column env i args.inputs).length = args.inputs.length := by
    simp [column]
  have hterms :
      ∀ v ∈ (column env i args.inputs).map (fun v : Nat => (v : ℚ) / 255),
        0 ≤ v ∧ v ≤ 1 := by
    intro v hv
    obtain ⟨u, hu, rfl⟩ := List.mem_map.mp hv
    have hub := column_bounds env args img hwf hrun i hi u hu
    constructor
    · positivity
    · rw [div_le_one (by norm_num)]
      exact_mod_cast hub
  have hn : 0 < args.inputs.length := by
    obtain ⟨_, _, _, _, _, _, hne⟩ := run_ok_dims env args img hrun
    exact List.length_pos.mpr hne
  apply encQ_eq_round
  · apply div_nonneg
    · exact List.sum_nonneg (fun v hv => (hterms v hv).1)
    · positivity
  · rw [div_le_one (by exact_mod_cast hn)]
    calc ((column env i args.inputs).map (fun v : Nat => (v : ℚ) / 255)).sum
        ≤ (((column env i args.inputs).map
            (fun v : Nat => (v : ℚ) / 255)).length : ℚ) :=
          sum_le_length_of_le_one _ (fun v hv => (hterms v hv).2)
      _ = (args.inputs.length : ℚ) := by rw [List.length_map, hlencol]

def argsAvg : Args := ⟨99, [0, 1], Mode.average, false⟩

theorem avgFold_eval :
    foldInputsQ envA [0, 0, 0] [0, 1] = .ok [1/17, 44/51, 19/17] := by
  norm_num [foldInputsQ, applyCombine, qCombine, envA]
  rfl

theorem avgRun_eval : run envA argsAvg = .ok ⟨1, 1, [8, 110, 143]⟩ := by
  have hstack : run envA argsAvg = runStack envA [0, 1] Mode.average 1 1 := rfl
  have hrepl : List.replicate (3 * 1 * 1) (0 : ℚ) = [0, 0, 0] := rfl
  rw [hstack]
  simp only [runStack, hrepl, avgFold_eval]
  norm_num [encQ, min_def, max_def, round_eq]
  exact ⟨rfl, rfl, rfl⟩

/-- Witness for C6: averaging the two concrete inputs gives channel values
round(7.5) = 8, round(110) = 110 and round(142.5) = 143. -/
theorem average_mode_channel_witness :
    (Image.mk 1 1 [8, 110, 143]).data.getD 0 0 =
      (round ((255 : ℚ) *
        (((column envA 0 argsAvg.inputs).map
          (fun v : Nat => (v : ℚ) / 255)).sum /
          (argsAvg.inputs.length : ℚ)))).toNat :=
  average_mode_channel envA argsAvg ⟨1, 1, [8, 110, 143]⟩ envA_wf rfl
    avgRun_eval 0 (by decide)

/-- A world where no file exists at all: every metadata query fails. -/
def env7 : Env where
  outIsDir := false
  outExists := false
  fileExists := fun _ => false
  isFile := fun _ => false
  dims := fun _ => none
  decode := fun _ => none

def args7 : Args := ⟨0, [1], Mode.sum, false⟩

/-- Counterexample to C7: when the FIRST input does not exist, the run does
not fail with InputMissing — the first input receives no existence check
before its dimension query, so the failure surfaces as a dimension-query
failure instead. -/
theorem first_input_missing_counterexample :
    env7.fileExists 1 = false ∧
    run env7 args7 = .error (RunErr.dimQueryFailed 1) ∧
    RunErr.dimQueryFailed 1 ≠ RunErr.inputMissing 1 :=
  ⟨rfl, rfl, by decide⟩

/-- C7 amended: every input AFTER the first that does not exist or is not a
regular file makes the run fail with InputMissing, and that check happens
before the input's dimensions are queried (the conclusion holds with no
assumption on `env.dims p`); the FIRST input gets no existence check — a
missing first input surfaces as a dimension-query failure instead. -/
theorem input_missing_amended (env : Env) :
    (∀ (w ht : Nat) (pre : List Path) (p : Path) (rest : List Path),
      (∀ q ∈ pre, restOk env w ht q = true) →
      (env.fileExists p && env.isFile p) = false →
      validateRest env w ht (pre ++ p :: rest) =
        .error (RunErr.inputMissing p)) ∧
    (∀ (args : Args) (p₀ : Path), args.inputs.head? = some p₀ →
      env.outIsDir = false → (env.outExists && !args.overwrite) = false →
      env.dims p₀ = none →
      run env args = .error (RunErr.dimQueryFailed p₀)) := by
  constructor
  · intro w ht pre
    induction pre with
    | nil =>
      intro p rest _ hp
      simp [validateRest, hp]
    | cons q pre ih =>
      intro p rest hpre hp
      have hq := hpre q (by simp)
      simp only [restOk, Bool.and_eq_true, beq_iff_eq] at hq
      obtain ⟨⟨hqe, hqf⟩, hqd⟩ := hq
      simp only [List.cons_append, validateRest, hqe, hqf, hqd,
        Bool.and_self, Bool.not_true, Bool.false_eq_true, if_false,
        bne_self_eq_false, Bool.or_self]
      exact ih p rest (fun r hr => hpre r (by simp [hr])) hp
  · intro args p₀ hp₀ hdir hex hdims
    simp [run, hdir, hex, hp₀, hdims]

/-- A world where input 0 is a valid 1x1 file and everything else is
missing. -/
def env7b : Env where
  outIsDir := false
  outExists := false
  fileExists := fun p => p == 0
  isFile := fun p => p == 0
  dims := fun p => if p = 0 then some (1, 1) else none
  decode := fun _ => none

/-- Witness for C7 (amended): with input 0 valid and input 1 missing, the
validation of `[0, 1]` fails with InputMissing for input 1, and a run whose
first input's dimension query fails aborts with that failure. -/
theorem input_missing_amended_witness :
    validateRest env7b 1 1 ([0] ++ 1 :: []) =
      .error (RunErr.inputMissing 1) ∧
    run env7 args7 = .error (RunErr.dimQueryFailed 1) :=
  ⟨(input_missing_amended env7b).1 1 1 [0] 1 [] (by decide) (by decide),
   (input_missing_amended env7).2 args7 1 rfl rfl rfl rfl⟩

theorem u8op_le (m : Mode) (a s : Nat) (ha : a ≤ 255) (hs : s ≤ 255) :
    u8op m a s ≤ 255 := by
  cases m
  all_goals
    simp only [u8op, satAdd, wrapAdd, Nat.min_def, Nat.max_def]
    repeat' split
    all_goals omega

theorem foldInputs_inv (env : Env) (op : Nat → Nat → Nat) (hwf : EnvWF env)
    (hop : ∀ a s, a ≤ 255 → s ≤ 255 → op a s ≤ 255) :
    ∀ (l : List Path) (acc out : List Nat), (∀ v ∈ acc, v ≤ 255) →
      foldInputs env op acc l = .ok out → ∀ v ∈ out, v ≤ 255 := by
  intro l
  induction l with
  | nil =>
    intro acc out hacc h
    simp only [foldInputs] at h
    cases h
    exact hacc
  | cons p l ih =>
    intro acc out hacc h
    simp only [foldInputs] at h
    split at h
    · cases h
    · rename_i d hd
      by_cases hfmt : d.format = PixFormat.other
      · rw [if_pos hfmt] at h; cases h
      · rw [if_neg hfmt] at h
        refine ih _ _ ?_ h
        intro u hu
        rcases applyCombine_mem _ _ _ _ hu with h' | ⟨a, ha, s, hs, rfl⟩
        · exact hacc u h'
        · exact hop a s (hacc a ha) (hwf.decode_bound p d hd s hs)

theorem foldInputsQ_bound (env : Env) (hwf : EnvWF env) :
    ∀ (l : List Path) (acc out : List ℚ) (k : ℚ),
      (∀ v ∈ acc, 0 ≤ v ∧ v ≤ k) → foldInputsQ env acc l = .ok out →
      ∀ v ∈ out, 0 ≤ v ∧ v ≤ k + l.length := by
  intro l
  induction l with
  | nil =>
    intro acc out k hacc h
    simp only [foldInputsQ] at h
    cases h
    intro v hv
    obtain ⟨h0, h1⟩ := hacc v hv
    exact ⟨h0, by simpa using h1⟩
  | cons p l ih =>
    intro acc out k hacc h
    simp only [foldInputsQ] at h
    split at h
    · cases h
    · rename_i d hd
      by_cases hfmt : d.format = PixFormat.other
      · rw [if_pos hfmt] at h; cases h
      · rw [if_neg hfmt] at h
        intro v hv
        have hnew : ∀ u ∈ applyCombine qCombine acc d.data,
            0 ≤ u ∧ u ≤ k + 1 := by
          intro u hu
          rcases applyCombine_mem _ _ _ _ hu with h' | ⟨a, ha, s, hs, rfl⟩
          · obtain ⟨h0, h1⟩ := hacc u h'
            exact ⟨h0, by linarith⟩
          · obtain ⟨h0, h1⟩ := hacc a ha
            have hs255 : s ≤ 255 := hwf.decode_bound p d hd s hs
            have hs1 : (s : ℚ) / 255 ≤ 1 := by
              rw [div_le_one (by norm_num)]
              exact_mod_cast hs255
            have hs0 : (0 : ℚ) ≤ (s : ℚ) / 255 := by positivity
            exact ⟨by simp only [qCombine]; linarith,
              by simp only [qCombine]; linarith⟩
        have hb := ih _ _ (k + 1) hnew h v hv
        refine ⟨hb.1, ?_⟩
        have h2 := hb.2
        simp only [List.length_cons]
        push_cast
        push_cast at h2
        linarith

/-- Counterexample to C8: folding the two concrete inputs in Average mode
drives the third accumulator channel to 19/17 BEFORE the finalization
divide — the running sum is not confined to [0, 1]. -/
theorem average_acc_exceeds_one :
    foldInputsQ envA [0, 0, 0] [0, 1] = .ok [1/17, 44/51, 19/17] ∧
    ¬((19 : ℚ) / 17 ≤ 1) :=
  ⟨avgFold_eval, by norm_num⟩

/-- C8 amended: throughout accumulation every integer-mode accumulator
channel stays in [0, 255]; for Average the accumulator channel is a running
sum in [0, k] after folding k inputs (not [0, 1]), and only AFTER the
finalization divide by the input count is every channel in [0, 1]. -/
theorem accumulator_bounds_amended (env : Env) (hwf : EnvWF env) (n : Nat) :
    (∀ (m : Mode) (l : List Path) (out : List Nat),
      foldInputs env (u8op m) (List.replicate n 0) l = .ok out →
      ∀ v ∈ out, v ≤ 255) ∧
    (∀ (l : List Path) (out : List ℚ),
      foldInputsQ env (List.replicate n 0) l = .ok out →
      ∀ v ∈ out, 0 ≤ v ∧ v ≤ (l.length : ℚ)) ∧
    (∀ (l : List Path) (out : List ℚ), l ≠ [] →
      foldInputsQ env (List.replicate n 0) l = .ok out →
      ∀ v ∈ out, 0 ≤ v / (l.length : ℚ) ∧ v / (l.length : ℚ) ≤ 1) := by
  have hq : ∀ (l : List Path) (out : List ℚ),
      foldInputsQ env (List.replicate n 0) l = .ok out →
      ∀ v ∈ out, 0 ≤ v ∧ v ≤ (l.length : ℚ) := by
    intro l out hf v hv
    have hb := foldInputsQ_bound env hwf l _ out 0
      (fun u hu => by rw [List.eq_of_mem_replicate hu]; exact ⟨le_refl 0, le_refl 0⟩)
      hf v hv
    exact ⟨hb.1, by linarith [hb.2]⟩
  refine ⟨?_, hq, ?_⟩
  · intro m l out hf
    exact foldInputs_inv env (u8op m) hwf (u8op_le m) l _ out
      (fun u hu => by rw [List.eq_of_mem_replicate hu]; omega) hf
  · intro l out hl hf v hv
    obtain ⟨h0, h1⟩ := hq l out hf v hv
    have hlen : (0 : ℚ) < (l.length : ℚ) := by
      exact_mod_cast List.length_pos.mpr hl
    exact ⟨div_nonneg h0 (le_of_lt hlen), (div_le_one hlen).mpr h1⟩

/-- Witness for C8 (amended): the bounds instantiated in the concrete
two-input world with a 3-channel accumulator. -/
theorem accumulator_bounds_amended_witness :
    (∀ (m : Mode) (l : List Path) (out : List Nat),
      foldInputs envA (u8op m) (List.replicate 3 0) l = .ok out →
      ∀ v ∈ out, v ≤ 255) ∧
    (∀ (l : List Path) (out : List ℚ),
      foldInputsQ envA (List.replicate 3 0) l = .ok out →
      ∀ v ∈ out, 0 ≤ v ∧ v ≤ (l.length : ℚ)) ∧
    (∀ (l : List Path) (out : List ℚ), l ≠ [] →
      foldInputsQ envA (List.replicate 3 0) l = .ok out →
      ∀ v ∈ out, 0 ≤ v / (l.length : ℚ) ∧ v / (l.length : ℚ) ≤ 1) :=
  accumulator_bounds_amended envA envA_wf 3

/-- C9: a failed run writes nothing (the saved output is exactly the
success value of `run`), and a successful run implies every input was
dimension-queried, decoded and format-checked successfully — the output
exists only after every input has been folded. -/
theorem no_partial_output (env : Env) (args : Args) :
    (∀ e, run env args = .error e → outputWritten env args = none) ∧
    (∀ img, run env args = .ok img → ∀ p ∈ args.inputs,
      env.dims p ≠ none ∧
      ∃ d, env.decode p = some d ∧ d.format ≠ PixFormat.other) := by
  constructor
  · intro e he
    rw [outputWritten, he]
    rfl
  · intro img hrun p hp
    obtain ⟨w, ht, hdims, hs, _, _, _⟩ := run_ok_dims env args img hrun
    refine ⟨by rw [hdims p hp]; simp, ?_⟩
    obtain ⟨_, _, hcase⟩ := runStack_ok env args.inputs args.mode w ht img hs
    rcases hcase with ⟨_, hf⟩ | ⟨_, acc, hf, _⟩
    · exact (foldInputs_ok env _ args.inputs _ _ hf).2 p hp
    · exact (foldInputsQ_ok env args.inputs _ _ hf).2 p hp

/-- Witness for C9: a run that fails (missing first input) writes nothing,
and in the successful concrete Sum run every input decoded. -/
theorem no_partial_output_witness :
    outputWritten env7 args7 = none ∧
    ∃ d, envA.decode 0 = some d ∧ d.format ≠ PixFormat.other :=
  ⟨(no_partial_output env7 args7).1 (RunErr.dimQueryFailed 1) rfl,
   ((no_partial_output envA argsSum).2 ⟨1, 1, [15, 220, 255]⟩ rfl 0
     (by simp [argsSum])).2⟩

theorem validateRest_no_panic (env : Env) (w ht : Nat) :
    ∀ l, validateRest env w ht l ≠ .error RunErr.panicEmptyInputs := by
  intro l
  induction l with
  | nil => simp [validateRest]
  | cons p l ih =>
    simp only [validateRest]
    split
    · simp
    · split
      · simp
      · split
        · simp
        · exact ih

theorem foldInputs_no_panic (env : Env) (op : Nat → Nat → Nat) :
    ∀ l acc, foldInputs env op acc l ≠ .error RunErr.panicEmptyInputs := by
  intro l
  induction l with
  | nil => intro acc; simp [foldInputs]
  | cons p l ih =>
    intro acc
    simp only [foldInputs]
    split
    · simp
    · split
      · simp
      · exact ih _

theorem foldInputsQ_no_panic (env : Env) :
    ∀ l acc, foldInputsQ env acc l ≠ .error RunErr.panicEmptyInputs := by
  intro l
  induction l with
  | nil => intro acc; simp [foldInputsQ]
  | cons p l ih =>
    intro acc
    simp only [foldInputsQ]
    split
    · simp
    · split
      · simp
      · exact ih _

theorem runStack_no_panic (env : Env) (inputs : List Path) (m : Mode)
    (w ht : Nat) : runStack env inputs m w ht ≠ .error RunErr.panicEmptyInputs := by
  cases m
  case average =>
    simp only [runStack]
    split
    · rename_i e heq
      intro hcontra
      cases hcontra
      exact foldInputsQ_no_panic env _ _ heq
    · simp
  all_goals
    simp only [runStack]
    split
    · rename_i e heq
      intro hcontra
      cases hcontra
      exact foldInputs_no_panic env _ _ _ heq
    · simp

/-- C10: the program's core assumes a non-empty input list (the CLI marks
inputs as required); under that precondition the unchecked access to the
first input path never panics — the head of the inputs exists and a run
never aborts with the empty-inputs panic. -/
theorem nonempty_inputs_no_panic (env : Env) (args : Args)
    (hne : args.inputs ≠ []) :
    args.inputs.head?.isSome = true ∧
    run env args ≠ .error RunErr.panicEmptyInputs := by
  cases hi : args.inputs with
  | nil => exact absurd hi hne
  | cons p t =>
    constructor
    · simp [hi]
    · rw [run]
      intro hcontra
      split at hcontra
      · cases hcontra
      split at hcontra
      · cases hcontra
      split at hcontra
      · rename_i hh
        rw [hi] at hh
        cases hh
      split at hcontra
      · cases hcontra
      split at hcontra
      · rename_i e hv
        cases hcontra
        exact validateRest_no_panic env _ _ _ hv
      · exact runStack_no_panic env _ _ _ _ hcontra

/-- Witness for C10: the concrete non-empty Sum batch has a first input and
its run does not hit the empty-inputs panic. -/
theorem nonempty_inputs_no_panic_witness :
    argsSum.inputs.head?.isSome = true ∧
    run envA argsSum ≠ .error RunErr.panicEmptyInputs :=
  nonempty_inputs_no_panic envA argsSum (by decide)

end ImgStack
